import Mathlib

/-!
Verification development for `asciimatics/parsers.py`.

The source file provides three parsers turning raw annotated text into a list of
(glyph, attribute-triple, offset) records:
  * `AsciimaticsParser.reset` — the custom markup language (tokens of shape
    `$\x7b...\x7d` embedded in literal text);
  * `AnsiTerminalParser.reset` — the ANSI/VT escape interpreter with an editable
    cursor, line-erase, character-delete and SGR colour decoding;
  * `AnsiTerminalParser.normalize` — the re-serialisation of a parsed result to a
    minimal canonical escape string.

The Lean definitions below are a shallow embedding of that code: Python strings
become `List Char`, Python `int` becomes `Int`, Python `None` components become
`Option`, Python list slicing (including its negative-index and past-end
normalisation rules) becomes `pySliceIdx`/`pyGetSlice`/`pySetSlice`, and the one
place where the Python code can raise (`int(...)` without a `try` in the
`P`/`C`/`D` CSI branches) is an `Option` whose `none` value models the raised
`ValueError`.
-/

namespace Asciimatics

/-- The colour/style triple `(foreground, style, background)`; `none` models
Python's `None` ("unset / inherit"). In the source this is the 3-element list
`state.attributes`. -/
structure Attrs where
  fg : Option Int
  style : Option Int
  bg : Option Int
deriving Repr, DecidableEq

/-- The all-unset triple `[None, None, None]` used when no colours are given. -/
def unset : Attrs := ⟨none, none, none⟩

/-- Modelled from the spec: the injected colour/style constant table
(`asciimatics/constants.py` is not part of the sources). The spec fixes only
that there are distinct default-foreground/default-background colour codes and
distinct bold/normal/reverse style codes; `normalize` documents the SGR codes
`1`/`2`/`7` for bold/normal/reverse. -/
def COLOUR_WHITE : Int := 7

/-- Modelled from the spec: default background colour code. -/
def COLOUR_BLACK : Int := 0

/-- Modelled from the spec: bold style code. -/
def A_BOLD : Int := 1

/-- Modelled from the spec: normal style code. -/
def A_NORMAL : Int := 2

/-- Modelled from the spec: reverse style code. -/
def A_REVERSE : Int := 3

/-- Modelled from the spec: underline style code (markup attribute table only). -/
def A_UNDERLINE : Int := 4

/-- `st.attributes[i] = v` for the index positions used by the source (0, 1, 2). -/
def writeAttr (a : Attrs) (i : Nat) (v : Int) : Attrs :=
  if i = 0 then { a with fg := some v }
  else if i = 1 then { a with style := some v }
  else if i = 2 then { a with bg := some v }
  else a

/-- One element of a parse result: `[glyph-or-None, attribute-triple, offset]`. -/
structure Record where
  glyph : Option Char
  attrs : Attrs
  offset : Nat
deriving Repr, DecidableEq

/-! ### Python slice semantics

For a list of length `n`, Python normalises a slice index `i` to
`max 0 (i + n)` when `i < 0` and to `min i n` otherwise; slice assignment
`a[i:j] = xs` replaces the (possibly empty) normalised range, inserting at the
start position when the range is empty. -/

/-- Normalise a Python slice index against length `n`. -/
def pySliceIdx (n : Nat) (i : Int) : Nat :=
  if i < 0 then (i + n).toNat else min i.toNat n

/-- Python `a[i:j]` (step 1). -/
def pyGetSlice (a : List α) (i j : Int) : List α :=
  (a.take (pySliceIdx a.length j)).drop (pySliceIdx a.length i)

/-- Python `a[i:j] = xs` (step 1). -/
def pySetSlice (a : List α) (i j : Int) (xs : List α) : List α :=
  let i' := pySliceIdx a.length i
  let j' := max i' (pySliceIdx a.length j)
  a.take i' ++ xs ++ a.drop j'

/-! ### Python `str.split` and `int()` -/

/-- Python `s.split(sep)` for a single-character separator: `"".split(sep)` is
`[""]` and empty fields are kept. -/
def pySplit (sep : Char) : List Char → List (List Char)
  | [] => [[]]
  | c :: rest =>
    let r := pySplit sep rest
    if c = sep then [] :: r
    else (c :: r.headD []) :: r.tail

/-- ASCII whitespace stripped by Python's `int()`. -/
def isPyWS (c : Char) : Bool :=
  c = ' ' || c = '\t' || c = '\n' || c = '\x0d' || c = '\x0b' || c = '\x0c'

/-- Numeric value of a list of ASCII digits. -/
def valDigits (s : List Char) : Nat :=
  s.foldl (fun a c => 10 * a + (c.toNat - 48)) 0

/-- Strip leading and trailing whitespace. -/
def stripWS (s : List Char) : List Char :=
  ((s.dropWhile isPyWS).reverse.dropWhile isPyWS).reverse

/-- Python `int(s)` for the strings reachable here: optional surrounding
whitespace, an optional single sign, then one or more ASCII digits; `none`
models the raised `ValueError`. (Python additionally accepts unicode digits and
underscore separators; underscores cannot occur inside a CSI parameter field
and no claim depends on unicode digits.) -/
def pyInt (s : List Char) : Option Int :=
  match stripWS s with
  | [] => none
  | c :: ds =>
    if c = '+' then
      if !ds.isEmpty && ds.all Char.isDigit then some ((valDigits ds : Nat) : Int) else none
    else if c = '-' then
      if !ds.isEmpty && ds.all Char.isDigit then some (-((valDigits ds : Nat) : Int)) else none
    else if (c :: ds).all Char.isDigit then some ((valDigits (c :: ds) : Nat) : Int)
    else none

/-! ### Decimal rendering (Python `"{}".format`) -/

/-- Digit character for `n < 10`. -/
def digitChar (n : Nat) : Char := Char.ofNat (48 + n)

/-- Fuel-driven decimal digit accumulator. -/
def natDigitsAux : Nat → Nat → List Char → List Char
  | 0, _, acc => acc
  | f + 1, n, acc =>
    if n < 10 then digitChar n :: acc
    else natDigitsAux f (n / 10) (digitChar (n % 10) :: acc)

/-- Decimal digits of a natural number (`str(n)` for `n ≥ 0`). -/
def natDigits (n : Nat) : List Char := natDigitsAux (n + 1) n []

/-- Python `str(i)` for an integer. -/
def intStr (i : Int) : List Char :=
  if i < 0 then '-' :: natDigits (-i).toNat else natDigits i.toNat

/-- Python `str(x)` for an `int | None` value (`"{}".format` of a component). -/
def optIntStr : Option Int → List Char
  | none => ['N', 'o', 'n', 'e']
  | some v => intStr v

/-! ## `AnsiTerminalParser`

The CSI regular expression is `^(\x1B\[([^@-~]*)([@-~]))(.*)`: after `ESC [`,
the parameter field is the longest run of characters outside `0x40..0x7E`, and
the following character (when present) is the final byte. -/

/-- Is `c` a CSI final byte (the class `[@-~]`, i.e. `0x40..0x7E`)? -/
def isFinalByte (c : Char) : Bool := decide (64 ≤ c.toNat ∧ c.toNat ≤ 126)

/-- Match the compiled regular expression `_colour_sequence` of
`AnsiTerminalParser` against the head of the text, returning
`(parameter field, final byte)`; the full match `group(1)` has length
`params.length + 3`. -/
def matchCSI : List Char → Option (List Char × Char)
  | '\x1b' :: '[' :: rest =>
    match rest.drop (rest.takeWhile fun c => !isFinalByte c).length with
    | f :: _ => some (rest.takeWhile fun c => !isFinalByte c, f)
    | [] => none
  | _ => none

/-- The transient state of the SGR parameter sub-FSM (the booleans
`in_set_mode`, `in_index_mode`, `in_rgb_mode` plus `skip_size` and
`attribute_index` of `_handle_escape`). -/
structure SgrState where
  attrs : Attrs
  inSet : Bool
  inIndex : Bool
  inRgb : Bool
  skipSize : Int
  attrIndex : Nat
deriving Repr, DecidableEq

/-- Process one (already `int`-converted) SGR parameter. Branch structure and
order follow the `for parameter in match.group(2).split(";")` loop body. -/
def sgrParamInt (s : SgrState) (p : Int) : SgrState :=
  if s.inSet then
    if p = 5 then { s with inIndex := true, inSet := false }
    else if p = 2 then { s with inRgb := true, skipSize := 3, inSet := false }
    else { s with inSet := false }
  else if s.inIndex then
    { s with attrs := writeAttr s.attrs s.attrIndex p, inIndex := false }
  else if s.inRgb then
    let sk := s.skipSize - 1
    if sk ≤ 0 then { s with skipSize := sk, inRgb := false }
    else { s with skipSize := sk }
  else
    if p = 0 then
      { s with attrs := ⟨some COLOUR_WHITE, some A_NORMAL, some COLOUR_BLACK⟩ }
    else if p = 1 then { s with attrs := { s.attrs with style := some A_BOLD } }
    else if p = 2 ∨ p = 22 then { s with attrs := { s.attrs with style := some A_NORMAL } }
    else if p = 7 then { s with attrs := { s.attrs with style := some A_REVERSE } }
    else if p = 27 then { s with attrs := { s.attrs with style := some A_NORMAL } }
    else if 30 ≤ p ∧ p < 38 then { s with attrs := { s.attrs with fg := some (p - 30) } }
    else if 40 ≤ p ∧ p < 48 then { s with attrs := { s.attrs with bg := some (p - 40) } }
    else if p = 38 then { s with inSet := true, attrIndex := 0 }
    else if p = 48 then { s with inSet := true, attrIndex := 2 }
    else s

/-- One raw SGR parameter: `int(parameter)` with `ValueError` defaulting to 0. -/
def sgrParam (s : SgrState) (raw : List Char) : SgrState :=
  sgrParamInt s ((pyInt raw).getD 0)

/-- Run the whole SGR parameter stream of a `CSI ... m` sequence. -/
def applySGR (a : Attrs) (params : List Char) : Attrs :=
  (List.foldl sgrParam ⟨a, false, false, false, 0, 0⟩ (pySplit ';' params)).attrs

/-- The loop state of `AnsiTerminalParser.reset` (the `_DotDict` `state`). -/
structure PState where
  result : List Record
  attributes : Attrs
  offset : Nat
  lastOffset : Nat
  cursor : Int
  text : List Char
deriving Repr, DecidableEq

/-- The body of `_handle_escape` on a successful CSI match: dispatch on the
final byte. `none` models the raised `ValueError` (an unguarded `int()` on a
non-numeric parameter in the `P`/`C`/`D` branches). -/
def handleCSI (st : PState) (params : List Char) (final : Char) : Option PState :=
  if final = 'm' then
    some { st with attributes := applySGR st.attributes params }
  else if final = 'K' then
    let blanks : List Record :=
      List.replicate st.cursor.toNat ⟨some ' ', st.attributes, st.offset⟩
    if params = [] ∨ params = ['0'] then
      some { st with result := pyGetSlice st.result 0 st.cursor }
    else if params = ['1'] then
      some { st with result := blanks ++ pyGetSlice st.result st.cursor st.result.length }
    else if params = ['2'] then
      some { st with result := blanks }
    else some st
  else if final = 'P' then
    match (if params = [] then some 1 else pyInt params) with
    | none => none
    | some p =>
      let kept := pyGetSlice st.result 0 st.cursor ++
        pyGetSlice st.result (st.cursor + p) st.result.length
      some { st with result := kept }
  else if final = 'C' then
    match (if params = [] then some 1 else pyInt params) with
    | none => none
    | some p => some { st with cursor := st.cursor + p }
  else if final = 'D' then
    match (if params = [] then some 1 else pyInt params) with
    | none => none
    | some p => some { st with cursor := st.cursor - p }
  else some st

/-- `_handle_escape(state)`: returns the number of raw characters consumed
(2 on no match, `len(match.group(1))` on a match) and the updated state;
`none` models a raised `ValueError`. -/
def handleEscape (st : PState) : Option (Nat × PState) :=
  match matchCSI st.text with
  | none => some (2, st)
  | some (params, final) =>
    (handleCSI st params final).map fun s2 => (params.length + 3, s2)

/-- One iteration of the `while len(state.text) > 0` dispatch loop; `none`
models a raised `ValueError`, and an empty text is returned unchanged. -/
def ansiStep (st : PState) : Option PState :=
  match st.text with
  | [] => some st
  | ch :: rest =>
    if 31 < ch.toNat then
      some { st with
        result := pySetSlice st.result st.cursor (st.cursor + 1)
          [⟨some ch, st.attributes, st.lastOffset⟩],
        cursor := st.cursor + 1,
        offset := st.offset + 1,
        lastOffset := st.offset + 1,
        text := rest }
    else if ch.toNat = 8 then
      some { st with cursor := max (st.cursor - 1) 0, offset := st.offset + 1, text := rest }
    else if ch.toNat = 13 then
      some { st with cursor := 0, offset := st.offset + 1, text := rest }
    else if ch.toNat = 27 then
      match handleEscape st with
      | none => none
      | some (n, st') => some { st' with offset := st.offset + n, text := st.text.drop n }
    else
      some { st with offset := st.offset + 1, text := rest }

/-- Fuel-indexed iteration of `ansiStep` until the text is exhausted. Any fuel
of at least `st.text.length` yields the loop's result (each step consumes at
least one character); fuel exhaustion is unreachable there. -/
def runLoopF : Nat → PState → Option PState
  | 0, st => if st.text = [] then some st else none
  | f + 1, st =>
    match st.text with
    | [] => some st
    | _ :: _ =>
      match ansiStep st with
      | none => none
      | some st' => runLoopF f st'

/-- The full dispatch loop of `AnsiTerminalParser.reset`. -/
def runLoop (st : PState) : Option PState := runLoopF st.text.length st

/-- The loop state constructed at the top of `reset`. -/
def initState (text : List Char) (colours : Option Attrs) : PState :=
  ⟨[], colours.getD unset, 0, 0, 0, text⟩

/-- What `reset` stores: the record list (`self._result`) and the reported
cursor (`self._cursor = len(state.result) - state.cursor`). -/
structure AnsiOut where
  result : List Record
  cursor : Int
deriving Repr, DecidableEq

/-- `AnsiTerminalParser.reset(text, colours)`; `none` models a raised
`ValueError`. The reported cursor is computed before the trailing
attribute-only record is appended. -/
def ansiReset (text : List Char) (colours : Option Attrs) : Option AnsiOut :=
  match runLoop (initState text colours) with
  | none => none
  | some st =>
    some ⟨(if st.lastOffset ≠ st.offset then
            st.result ++ [⟨none, st.attributes, st.lastOffset⟩]
          else st.result),
          (st.result.length : Int) - st.cursor⟩

/-! ### `AnsiTerminalParser.normalize` -/

/-- Python `";".join(format)`. -/
def joinSemi : List (List Char) → List Char
  | [] => []
  | [x] => x
  | x :: y :: xs => x ++ ';' :: joinSemi (y :: xs)

/-- The entry appended to `format` when the style component changed (SGR codes
`"1"`, `"2"`, `"7"` for bold/normal/reverse; nothing for any other style). -/
def styleChunk (old new : Attrs) : List (List Char) :=
  if old.style ≠ new.style then
    if new.style = some A_BOLD then [['1']]
    else if new.style = some A_NORMAL then [['2']]
    else if new.style = some A_REVERSE then [['7']]
    else []
  else []

/-- The `format` list built for one record whose triple differs from the
previous one: `"38;5;{fg}"`, the style code, `"48;5;{bg}"`. -/
def formatChunks (old new : Attrs) : List (List Char) :=
  (if old.fg ≠ new.fg then [['3', '8', ';', '5', ';'] ++ optIntStr new.fg] else []) ++
    styleChunk old new ++
    (if old.bg ≠ new.bg then [['4', '8', ';', '5', ';'] ++ optIntStr new.bg] else [])

/-- The joined SGR parameter field emitted for an attribute change. -/
def sgrParams (old new : Attrs) : List Char := joinSemi (formatChunks old new)

/-- The full `"\x1B[{}m"` sequence emitted for an attribute change. -/
def sgrEmit (old new : Attrs) : List Char :=
  '\x1b' :: '[' :: (sgrParams old new ++ ['m'])

/-- The `for i, element in enumerate(self._result)` loop of `normalize`:
returns the characters appended to `new_value` and the records with their
offsets rewritten. `curLen` is `len(new_value)` so far and `lastOff` the
running `last_offset`. -/
def normLoop : List Record → Attrs → Nat → Nat → List Char × List Record
  | [], _, _, _ => ([], [])
  | r :: rs, attrs, curLen, lastOff =>
    let e := if attrs ≠ r.attrs then sgrEmit attrs r.attrs else []
    let g : List Char := match r.glyph with | some c => [c] | none => []
    let len2 := curLen + e.length + g.length
    let rec2 := normLoop rs r.attrs len2 len2
    (e ++ g ++ rec2.1, { r with offset := lastOff } :: rec2.2)

/-- `AnsiTerminalParser.normalize()`: the canonical string, plus the stored
result with rewritten offsets and the unchanged reported cursor (the rewrite
of `self._result` is the documented side effect). A trailing `"\x1B[{n}D"` is
appended when the reported cursor is positive. -/
def normalize (out : AnsiOut) : List Char × AnsiOut :=
  let p := normLoop out.result unset 0 0
  let nv :=
    if 0 < out.cursor then p.1 ++ ('\x1b' :: '[' :: (intStr out.cursor ++ ['D']))
    else p.1
  (nv, ⟨p.2, out.cursor⟩)

/-! ## `AsciimaticsParser`

The markup token grammar and the style-name table are modelled from the spec
(`constants.COLOUR_REGEX` and `constants.MAPPING_ATTRIBUTES` are not part of
the sources): tokens are `$\x7bc\x7d`, `$\x7bc,a\x7d` or `$\x7bc,a,b\x7d`
with `c`, `b` digit strings and `a` a style name from the injected table. -/

/-- Modelled from the spec: the injected style-name → style-code table
(`constants.MAPPING_ATTRIBUTES`). -/
def styleCode : List Char → Option Int
  | ['b', 'o', 'l', 'd'] => some A_BOLD
  | ['n', 'o', 'r', 'm', 'a', 'l'] => some A_NORMAL
  | ['r', 'e', 'v', 'e', 'r', 's', 'e'] => some A_REVERSE
  | ['u', 'n', 'd', 'e', 'r', 'l', 'i', 'n', 'e'] => some A_UNDERLINE
  | _ => none

/-- A matched markup token: the inner content (`match.group(1)`, whose length
drives the raw-offset advance `3 + len(group(1))`) and the attribute triple it
selects. -/
structure MarkupTok where
  content : List Char
  attrs : Attrs
deriving Repr, DecidableEq

/-- Is `s` a non-empty ASCII digit string? -/
def isDigits (s : List Char) : Bool := !s.isEmpty && s.all Char.isDigit

/-- Modelled from the spec: match one markup token at the head of the text
(`constants.COLOUR_REGEX`). One-argument tokens give `(c, 0, None)`,
two-argument ones `(c, table[a], None)`, three-argument ones
`(c, table[a], b)`. -/
def matchMarkup : List Char → Option MarkupTok
  | '$' :: '\x7b' :: rest =>
    let content := rest.takeWhile fun c => c ≠ '\x7d'
    match rest.drop content.length with
    | [] => none
    | _ :: _ =>
      match pySplit ',' content with
      | [c] =>
        if isDigits c then some ⟨content, ⟨some (valDigits c), some 0, none⟩⟩ else none
      | [c, a] =>
        if isDigits c then
          (styleCode a).map fun sc => ⟨content, ⟨some (valDigits c), some sc, none⟩⟩
        else none
      | [c, a, b] =>
        if isDigits c && isDigits b then
          (styleCode a).map fun sc =>
            ⟨content, ⟨some (valDigits c), some sc, some (valDigits b)⟩⟩
        else none
      | _ => none
  | _ => none

/-- The remaining text after a matched markup token (`match.group(8)`). -/
def markupRem (t : List Char) (tok : MarkupTok) : List Char :=
  t.drop (tok.content.length + 3)

/-- Fuel-indexed version of the `while len(text) > 0` loop of
`AsciimaticsParser.reset`: returns the emitted records and the final
`(attributes, offset, last_offset)`. Any fuel of at least the text length
yields the loop's result. -/
def asciiLoopF : Nat → List Char → Attrs → Nat → Nat → List Record × Attrs × Nat × Nat
  | 0, _, a, o, lo => ([], a, o, lo)
  | _ + 1, [], a, o, lo => ([], a, o, lo)
  | f + 1, t@(ch :: rest), a, o, lo =>
    match matchMarkup t with
    | none =>
      let r := asciiLoopF f rest a (o + 1) (o + 1)
      (⟨some ch, a, lo⟩ :: r.1, r.2)
    | some tok =>
      asciiLoopF f (markupRem t tok) tok.attrs (o + (3 + tok.content.length)) lo

/-- The markup dispatch loop. -/
def asciiLoop (t : List Char) (a : Attrs) (o lo : Nat) : List Record × Attrs × Nat × Nat :=
  asciiLoopF t.length t a o lo

/-- What `AsciimaticsParser.reset` stores: the record list and the cursor
(`len(self._result)` before the trailing attribute-only record is appended). -/
structure AsciiOut where
  result : List Record
  cursor : Nat
deriving Repr, DecidableEq

/-- `AsciimaticsParser.reset(text, colours)`. -/
def asciiReset (text : List Char) (colours : Option Attrs) : AsciiOut :=
  let r := asciiLoop text (colours.getD unset) 0 0
  { result := r.1 ++ (if r.2.2.2 ≠ r.2.2.1 then [⟨none, r.2.1, r.2.2.2⟩] else []),
    cursor := r.1.length }

/-! ## Views used by the claims -/

/-- Every glyph of the record is a printable character (code above 31);
attribute-only records satisfy this trivially. -/
def glyphOKb (r : Record) : Bool :=
  match r.glyph with
  | some g => decide (31 < g.toNat)
  | none => true

/-- One step of the attribute chain condition used by the round-trip theorem:
whenever a component changes from the previous record's triple, the new value
is set (and a changed style is one of the three serialisable codes). -/
def stepOKb (p c : Attrs) : Bool :=
  (if p.fg ≠ c.fg then c.fg.isSome else true) &&
    (if p.bg ≠ c.bg then c.bg.isSome else true) &&
    (if p.style ≠ c.style then
      (decide (c.style = some A_BOLD) || decide (c.style = some A_NORMAL) ||
        decide (c.style = some A_REVERSE))
    else true)

/-- The chain condition along a record list, starting from triple `a`. -/
def chainB : Attrs → List Record → Bool
  | _, [] => true
  | a, r :: rs => stepOKb a r.attrs && chainB r.attrs rs

/-- The attribute triple after the last record (or `a` for an empty list). -/
def lastAttrs (a : Attrs) (rs : List Record) : Attrs :=
  rs.foldl (fun _ r => r.attrs) a

/-- The characters a record contributes to the canonical string. -/
def glyphStr (r : Record) : List Char :=
  match r.glyph with
  | some c => [c]
  | none => []

/-- The canonical characters emitted by `normalize` for a record list starting
from triple `a` (the string part of `normLoop`, without the cursor suffix). -/
def emitAll : Attrs → List Record → List Char
  | _, [] => []
  | a, r :: rs => (if a ≠ r.attrs then sgrEmit a r.attrs else []) ++ glyphStr r ++ emitAll r.attrs rs

/-- The (glyph, attributes) pairs of the records carrying a visible glyph. -/
def visPairs (l : List Record) : List (Char × Attrs) :=
  l.filterMap fun r => r.glyph.map fun g => (g, r.attrs)

/-- The (glyph, attributes) pairs of all records, attribute-only ones
included. -/
def pairsAll (l : List Record) : List (Option Char × Attrs) :=
  l.map fun r => (r.glyph, r.attrs)

/-- The pair of (glyph, attributes) sequences before and after one
`reset` / `normalize` / `reset` round trip with no initial attributes. -/
def roundtripPairs (t : List Char) :
    Option (List (Option Char × Attrs) × List (Option Char × Attrs)) :=
  (ansiReset t none).bind fun o1 =>
    (ansiReset (normalize o1).1 none).map fun o2 => (pairsAll o1.result, pairsAll o2.result)

/-- The SGR sub-FSM applied to a single parameter from its initial (top-level)
state: the view used by the colour-range claims. -/
def sgrTop (a : Attrs) (p : Int) : Attrs :=
  (sgrParamInt ⟨a, false, false, false, 0, 0⟩ p).attrs

/-- The ten ASCII digit characters. -/
def digitList : List Char := ['0', '1', '2', '3', '4', '5', '6', '7', '8', '9']

/-- An SGR sub-FSM state with all mode flags off. -/
def topState (x : Attrs) (sk : Int) (ai : Nat) : SgrState := ⟨x, false, false, false, sk, ai⟩

/-! ## Basic facts about the loops -/

theorem handleEscape_pos {st : PState} {n : Nat} {st' : PState}
    (h : handleEscape st = some (n, st')) : 1 ≤ n := by
  unfold handleEscape at h
  cases hm : matchCSI st.text with
  | none =>
    simp only [hm, Option.some.injEq, Prod.mk.injEq] at h
    omega
  | some pf =>
    obtain ⟨params, final⟩ := pf
    simp only [hm] at h
    rcases hc : handleCSI st params final with _ | s2
    · simp [hc] at h
    · simp only [hc, Option.map_some', Option.some.injEq] at h
      rw [Prod.mk.injEq] at h
      obtain ⟨h1, h2⟩ := h
      omega

theorem ansiStep_text_lt {st st' : PState} (hne : st.text ≠ [])
    (h : ansiStep st = some st') : st'.text.length < st.text.length := by
  cases ht : st.text with
  | nil => exact absurd ht hne
  | cons ch rest =>
    unfold ansiStep at h
    simp only [ht] at h
    by_cases h1 : 31 < ch.toNat
    · rw [if_pos h1] at h
      cases h
      simp
    · rw [if_neg h1] at h
      by_cases h2 : ch.toNat = 8
      · rw [if_pos h2] at h
        cases h
        simp
      · rw [if_neg h2] at h
        by_cases h3 : ch.toNat = 13
        · rw [if_pos h3] at h
          cases h
          simp
        · rw [if_neg h3] at h
          by_cases h4 : ch.toNat = 27
          · rw [if_pos h4] at h
            cases he : handleEscape st with
            | none => simp only [he] at h; cases h
            | some nst =>
              obtain ⟨n, st2⟩ := nst
              simp only [he] at h
              cases h
              have hn := handleEscape_pos he
              simp only [List.length_drop, List.length_cons]
              omega
          · rw [if_neg h4] at h
            cases h
            simp

theorem runLoopF_congr : ∀ (f g : Nat) (st : PState), st.text.length ≤ f →
    st.text.length ≤ g → runLoopF f st = runLoopF g st := by
  intro f
  induction f with
  | zero =>
    intro g st hf _
    have ht : st.text = [] := List.length_eq_zero.mp (Nat.le_zero.mp hf)
    cases g with
    | zero => rfl
    | succ g => simp [runLoopF, ht]
  | succ f ih =>
    intro g st hf hg
    cases g with
    | zero =>
      have ht : st.text = [] := List.length_eq_zero.mp (Nat.le_zero.mp hg)
      simp [runLoopF, ht]
    | succ g =>
      cases ht : st.text with
      | nil => simp [runLoopF, ht]
      | cons ch rest =>
        have hne : st.text ≠ [] := by simp [ht]
        simp only [runLoopF, ht]
        rcases hs : ansiStep st with _ | st'
        · rfl
        · have hlt := ansiStep_text_lt hne hs
          rw [ht] at hlt
          simp only [List.length_cons] at hlt
          rw [ht] at hf hg
          simp only [List.length_cons] at hf hg
          exact ih g st' (by omega) (by omega)

theorem runLoopF_succ_cons {f : Nat} {st : PState} {ch : Char} {rest : List Char}
    (ht : st.text = ch :: rest) :
    runLoopF (f + 1) st =
      match ansiStep st with
      | none => none
      | some st' => runLoopF f st' := by
  simp only [runLoopF, ht]

theorem runLoop_eq_nil {st : PState} (h : st.text = []) : runLoop st = some st := by
  unfold runLoop
  rw [h]
  simp [runLoopF, h]

theorem runLoop_eq_step {st st' : PState} (hne : st.text ≠ [])
    (h : ansiStep st = some st') : runLoop st = runLoop st' := by
  cases ht : st.text with
  | nil => exact absurd ht hne
  | cons ch rest =>
    have hlt := ansiStep_text_lt hne h
    rw [ht] at hlt
    simp only [List.length_cons] at hlt
    unfold runLoop
    rw [ht]
    simp only [List.length_cons]
    rw [runLoopF_succ_cons ht]
    simp only [h]
    exact runLoopF_congr rest.length st'.text.length st' (by omega) (le_refl _)

theorem runLoop_eq_none {st : PState} (hne : st.text ≠ [])
    (h : ansiStep st = none) : runLoop st = none := by
  cases ht : st.text with
  | nil => exact absurd ht hne
  | cons ch rest =>
    unfold runLoop
    rw [ht]
    simp only [List.length_cons]
    rw [runLoopF_succ_cons ht]
    simp [h]

/-! ## Evaluation lemmas for single constructs -/

theorem takeWhile_append_stop {α : Type} {p : α → Bool} (l1 : List α) (a : α) (l2 : List α)
    (h1 : ∀ x ∈ l1, p x = true) (h2 : p a = false) :
    (l1 ++ a :: l2).takeWhile p = l1 := by
  induction l1 with
  | nil => simp [List.takeWhile_cons, h2]
  | cons x xs ih =>
    have hx : p x = true := h1 x (by simp)
    simp only [List.cons_append, List.takeWhile_cons, hx, if_true]
    rw [ih fun y hy => h1 y (by simp [hy])]

theorem matchCSI_of (params : List Char) (final : Char) (rest : List Char)
    (hp : ∀ c ∈ params, isFinalByte c = false) (hf : isFinalByte final = true) :
    matchCSI ('\x1b' :: '[' :: (params ++ final :: rest)) = some (params, final) := by
  unfold matchCSI
  have htw : (params ++ final :: rest).takeWhile (fun c => !isFinalByte c) = params :=
    takeWhile_append_stop params final rest (fun x hx => by simp [hp x hx]) (by simp [hf])
  simp only [htw, List.drop_left]

theorem pySetSlice_append {α : Type} (l : List α) (x : α) {c : Int}
    (h : (l.length : Int) ≤ c) : pySetSlice l c (c + 1) [x] = l ++ [x] := by
  simp only [pySetSlice, pySliceIdx]
  have h0 : ¬ c < 0 := by omega
  have h1 : ¬ c + 1 < 0 := by omega
  rw [if_neg h0, if_neg h1]
  have hmin : min c.toNat l.length = l.length := by omega
  have hmin2 : min (c + 1).toNat l.length = l.length := by omega
  rw [hmin, hmin2]
  simp

theorem pyGetSlice_zero_take (l : List Record) (k : Nat) (h : k ≤ l.length) :
    pyGetSlice l 0 (k : Int) = l.take k := by
  simp only [pyGetSlice, pySliceIdx]
  have h0 : ¬ (0 : Int) < 0 := by omega
  have h1 : ¬ (k : Int) < 0 := by omega
  rw [if_neg h0, if_neg h1]
  have : min (k : Int).toNat l.length = k := by omega
  rw [this]
  simp

theorem applySGR_reset (a : Attrs) :
    applySGR a ['0'] = ⟨some COLOUR_WHITE, some A_NORMAL, some COLOUR_BLACK⟩ := by
  have h1 : pySplit ';' ['0'] = [['0']] := by decide
  simp only [applySGR, h1, List.foldl_cons, List.foldl_nil, sgrParam]
  have h2 : (pyInt ['0']).getD 0 = 0 := by decide
  rw [h2]
  simp [sgrParamInt]

theorem applySGR_31 (a : Attrs) : applySGR a ['3', '1'] = { a with fg := some 1 } := by
  have h1 : pySplit ';' ['3', '1'] = [['3', '1']] := by decide
  simp only [applySGR, h1, List.foldl_cons, List.foldl_nil, sgrParam]
  have h2 : (pyInt ['3', '1']).getD 0 = 31 := by decide
  rw [h2]
  norm_num [sgrParamInt]

theorem sgrTop_fgRange (a : Attrs) (p : Int) (hlo : 30 ≤ p) (hhi : p < 38) :
    sgrTop a p = { a with fg := some (p - 30) } := by
  have e0 : ¬ p = 0 := by omega
  have e1 : ¬ p = 1 := by omega
  have e2 : ¬ (p = 2 ∨ p = 22) := by omega
  have e7 : ¬ p = 7 := by omega
  have e27 : ¬ p = 27 := by omega
  simp [sgrTop, sgrParamInt, e0, e1, e2, e7, e27, hlo, hhi]

theorem sgrTop_bgRange (a : Attrs) (p : Int) (hlo : 40 ≤ p) (hhi : p < 48) :
    sgrTop a p = { a with bg := some (p - 40) } := by
  have e0 : ¬ p = 0 := by omega
  have e1 : ¬ p = 1 := by omega
  have e2 : ¬ (p = 2 ∨ p = 22) := by omega
  have e7 : ¬ p = 7 := by omega
  have e27 : ¬ p = 27 := by omega
  have e30 : ¬ (30 ≤ p ∧ p < 38) := by omega
  simp [sgrTop, sgrParamInt, e0, e1, e2, e7, e27, e30, hlo, hhi]

/-! ## The claims -/

/-- C2: the claim says `reset` never raises on any input; the code violates it.
On `"\x1b[?P"` the CSI match succeeds with parameter field `"?"` and final byte
`P`, and the character-delete branch runs `int("?")` outside any `try`, raising
`ValueError` (modelled by the `none` result). -/
theorem claim_C2 : ansiReset ('\x1b' :: '[' :: '?' :: 'P' :: []) none = none := by decide

/-- C4: after any prior attribute triple, `ESC[0m` sets the current triple to
exactly (default foreground, normal style, default background) and consumes the
sequence without touching the result buffer (no glyph record is emitted). -/
theorem claim_C4 (st : PState) (rest : List Char)
    (h : st.text = '\x1b' :: '[' :: '0' :: 'm' :: rest) :
    handleEscape st =
      some (4, { st with attributes := ⟨some COLOUR_WHITE, some A_NORMAL, some COLOUR_BLACK⟩ }) := by
  have hm : matchCSI st.text = some (['0'], 'm') := by
    rw [h]
    have := matchCSI_of ['0'] 'm' rest (by decide) (by decide)
    simpa using this
  unfold handleEscape
  rw [hm]
  simp only [handleCSI, if_pos rfl]
  rw [applySGR_reset]
  rfl

/-- C4 witness: the theorem applied to the concrete state parsing `"\x1b[0m"`
after a prior red-on-blue bold triple. -/
theorem claim_C4_witness :
    handleEscape ⟨[], ⟨some 1, some A_BOLD, some 4⟩, 0, 0, 0,
        '\x1b' :: '[' :: '0' :: 'm' :: []⟩ =
      some (4, { result := [], attributes := ⟨some COLOUR_WHITE, some A_NORMAL, some COLOUR_BLACK⟩,
                 offset := 0, lastOffset := 0, cursor := 0,
                 text := '\x1b' :: '[' :: '0' :: 'm' :: [] }) :=
  claim_C4 ⟨[], ⟨some 1, some A_BOLD, some 4⟩, 0, 0, 0, '\x1b' :: '[' :: '0' :: 'm' :: []⟩ [] rfl

/-- C5: `ESC[31m` sets the foreground to 1 and leaves style and background
untouched; in general an SGR parameter in `30..37` sets only the foreground to
`p - 30` and one in `40..47` sets only the background to `p - 40`. -/
theorem claim_C5 :
    (∀ (st : PState) (rest : List Char), st.text = '\x1b' :: '[' :: '3' :: '1' :: 'm' :: rest →
      handleEscape st = some (5, { st with attributes := { st.attributes with fg := some 1 } })) ∧
    (∀ (a : Attrs) (p : Int), 30 ≤ p → p < 38 → sgrTop a p = { a with fg := some (p - 30) }) ∧
    (∀ (a : Attrs) (p : Int), 40 ≤ p → p < 48 → sgrTop a p = { a with bg := some (p - 40) }) := by
  refine ⟨?_, sgrTop_fgRange, sgrTop_bgRange⟩
  intro st rest h
  have hm : matchCSI st.text = some (['3', '1'], 'm') := by
    rw [h]
    have := matchCSI_of ['3', '1'] 'm' rest (by decide) (by decide)
    simpa using this
  unfold handleEscape
  rw [hm]
  simp only [handleCSI, if_pos rfl]
  rw [applySGR_31]
  rfl

/-- C5 witness: `"\x1b[31m"` from a green-background state, and the two range
facts at parameters 31 and 41. -/
theorem claim_C5_witness :
    handleEscape ⟨[], ⟨none, none, some 2⟩, 0, 0, 0, '\x1b' :: '[' :: '3' :: '1' :: 'm' :: []⟩ =
      some (5, { result := [], attributes := ⟨some 1, none, some 2⟩, offset := 0,
                 lastOffset := 0, cursor := 0,
                 text := '\x1b' :: '[' :: '3' :: '1' :: 'm' :: [] }) ∧
    sgrTop unset 31 = { unset with fg := some 1 } ∧
    sgrTop unset 41 = { unset with bg := some 1 } := by
  refine ⟨?_, ?_, ?_⟩
  · exact claim_C5.1 ⟨[], ⟨none, none, some 2⟩, 0, 0, 0,
      '\x1b' :: '[' :: '3' :: '1' :: 'm' :: []⟩ [] rfl
  · have := claim_C5.2.1 unset 31 (by norm_num) (by norm_num)
    rw [this]
    norm_num
  · have := claim_C5.2.2 unset 41 (by norm_num) (by norm_num)
    rw [this]
    norm_num

/-- C6: a backspace moves the cursor left clamped at zero (so at cursor 0 it
stays at 0 and the cursor can never become negative this way) and a carriage
return resets the cursor to 0; neither mutates the buffer (only `cursor`,
`offset` and `text` change in the resulting state). -/
theorem claim_C6 (st : PState) (rest : List Char) :
    (st.text = '\x08' :: rest →
      ansiStep st = some { st with cursor := max (st.cursor - 1) 0,
                                   offset := st.offset + 1, text := rest } ∧
      (st.cursor = 0 → max (st.cursor - 1) 0 = 0) ∧
      0 ≤ max (st.cursor - 1) 0) ∧
    (st.text = '\x0d' :: rest →
      ansiStep st = some { st with cursor := 0, offset := st.offset + 1, text := rest }) := by
  constructor
  · intro ht
    refine ⟨?_, ?_, le_max_right _ _⟩
    · unfold ansiStep
      simp only [ht]
      rw [if_neg (by decide), if_pos (by decide)]
    · intro h0
      rw [h0]
      decide
  · intro ht
    unfold ansiStep
    simp only [ht]
    rw [if_neg (by decide), if_neg (by decide), if_pos (by decide)]

/-- C6 witness: a backspace at cursor 0 and a carriage return at cursor 2,
both on a two-record buffer that is left unchanged. -/
theorem claim_C6_witness :
    (ansiStep ⟨[⟨some 'a', unset, 0⟩], unset, 1, 1, 0, '\x08' :: []⟩ =
      some ⟨[⟨some 'a', unset, 0⟩], unset, 2, 1, 0, []⟩) ∧
    (ansiStep ⟨[⟨some 'a', unset, 0⟩], unset, 1, 1, 2, '\x0d' :: []⟩ =
      some ⟨[⟨some 'a', unset, 0⟩], unset, 2, 1, 0, []⟩) := by
  constructor
  · have h := (claim_C6 ⟨[⟨some 'a', unset, 0⟩], unset, 1, 1, 0, '\x08' :: []⟩ []).1 rfl
    rw [h.1]
    decide
  · have h := (claim_C6 ⟨[⟨some 'a', unset, 0⟩], unset, 1, 1, 2, '\x0d' :: []⟩ []).2 rfl
    rw [h]

/-- C8: an escape byte whose tail does not match the CSI pattern consumes
exactly two raw characters and leaves buffer, cursor and attributes unchanged
(the resulting state only advances `offset` and `text`). -/
theorem claim_C8 (st : PState) (rest : List Char)
    (h1 : st.text = '\x1b' :: rest) (h2 : matchCSI st.text = none) :
    handleEscape st = some (2, st) ∧
    ansiStep st = some { st with offset := st.offset + 2, text := st.text.drop 2 } := by
  have he : handleEscape st = some (2, st) := by
    unfold handleEscape
    rw [h2]
  refine ⟨he, ?_⟩
  unfold ansiStep
  simp only [h1]
  rw [if_neg (by decide), if_neg (by decide), if_neg (by decide), if_pos (by decide)]
  simp only [he]

/-- C8 witness: `"\x1bA"` (escape not followed by `[`): both raw characters
are consumed and the state is otherwise untouched. -/
theorem claim_C8_witness :
    handleEscape ⟨[], ⟨some 3, none, none⟩, 0, 0, 0, '\x1b' :: 'A' :: []⟩ =
      some (2, ⟨[], ⟨some 3, none, none⟩, 0, 0, 0, '\x1b' :: 'A' :: []⟩) ∧
    ansiStep ⟨[], ⟨some 3, none, none⟩, 0, 0, 0, '\x1b' :: 'A' :: []⟩ =
      some ⟨[], ⟨some 3, none, none⟩, 2, 0, 0, []⟩ := by
  have h := claim_C8 ⟨[], ⟨some 3, none, none⟩, 0, 0, 0, '\x1b' :: 'A' :: []⟩ ['A'] rfl (by decide)
  exact ⟨h.1, by rw [h.2]; rfl⟩

/-- C10: when the internal cursor sits strictly past the end of the buffer, a
printable character is appended at the buffer end (no padding cells), the
cursor still advances by one from its past-end value, and consequently the
reported cursor can be negative (`"\x1b[2Cx"` reports `-2`). -/
theorem claim_C10 :
    (∀ (st : PState) (ch : Char) (rest : List Char), st.text = ch :: rest → 31 < ch.toNat →
      (st.result.length : Int) < st.cursor →
      ansiStep st = some { st with
        result := st.result ++ [⟨some ch, st.attributes, st.lastOffset⟩],
        cursor := st.cursor + 1, offset := st.offset + 1, lastOffset := st.offset + 1,
        text := rest }) ∧
    ansiReset ('\x1b' :: '[' :: '2' :: 'C' :: 'x' :: []) none =
      some ⟨[⟨some 'x', unset, 0⟩], -2⟩ := by
  constructor
  · intro st ch rest ht hch hcur
    unfold ansiStep
    simp only [ht]
    rw [if_pos hch, pySetSlice_append _ _ (le_of_lt hcur)]
  · decide

/-- C10 witness: a printable byte arriving with the cursor two cells past the
end of a one-record buffer. -/
theorem claim_C10_witness :
    ansiStep ⟨[⟨some 'a', unset, 0⟩], unset, 5, 1, 3, 'x' :: []⟩ =
      some ⟨[⟨some 'a', unset, 0⟩, ⟨some 'x', unset, 1⟩], unset, 6, 6, 4, []⟩ := by
  have h := claim_C10.1 ⟨[⟨some 'a', unset, 0⟩], unset, 5, 1, 3, 'x' :: []⟩ 'x' []
    rfl (by decide) (by decide)
  rw [h]
  rfl

/-- C7 counterexample: the claim quantifies over every internal cursor value,
but the cursor can sit past the end of the buffer (here `"x\x1b[5C\x1b[K"`
leaves it at 6); erase-to-end then keeps the whole 1-element buffer, not 6
entries. -/
theorem claim_C7_counterexample :
    (runLoop (initState ('x' :: '\x1b' :: '[' :: '5' :: 'C' :: '\x1b' :: '[' :: 'K' :: []) none)).map
        (fun s => (s.result.length, s.cursor)) = some (1, 6) ∧
    ¬ ((1 : Int) = 6) := by
  constructor <;> decide

/-- C7 amended: when the internal cursor `k` does not exceed the buffer
length, `ESC[K` (and `ESC[0K`) truncates the buffer to exactly its first `k`
entries, which are unchanged. -/
theorem claim_C7_amended (st : PState) (rest : List Char) (k : Nat)
    (hc : st.cursor = (k : Int)) (hk : k ≤ st.result.length) :
    (st.text = '\x1b' :: '[' :: 'K' :: rest →
      handleEscape st = some (3, { st with result := st.result.take k }) ∧
      (st.result.take k).length = k) ∧
    (st.text = '\x1b' :: '[' :: '0' :: 'K' :: rest →
      handleEscape st = some (4, { st with result := st.result.take k }) ∧
      (st.result.take k).length = k) := by
  have hlen : (st.result.take k).length = k := by
    simp only [List.length_take]
    omega
  constructor
  · intro ht
    refine ⟨?_, hlen⟩
    have hm : matchCSI st.text = some ([], 'K') := by
      rw [ht]
      have := matchCSI_of [] 'K' rest (by simp) (by decide)
      simpa using this
    unfold handleEscape
    rw [hm]
    simp [handleCSI]
    rw [hc]
    exact pyGetSlice_zero_take _ _ hk
  · intro ht
    refine ⟨?_, hlen⟩
    have hm : matchCSI st.text = some (['0'], 'K') := by
      rw [ht]
      have := matchCSI_of ['0'] 'K' rest (by decide) (by decide)
      simpa using this
    unfold handleEscape
    rw [hm]
    simp [handleCSI]
    rw [hc]
    exact pyGetSlice_zero_take _ _ hk

/-- C7 witness: `ESC[K` at cursor 1 on a two-record buffer keeps exactly the
first record. -/
theorem claim_C7_witness :
    handleEscape ⟨[⟨some 'a', unset, 0⟩, ⟨some 'b', unset, 1⟩], unset, 2, 2, 1,
        '\x1b' :: '[' :: 'K' :: []⟩ =
      some (3, ⟨[⟨some 'a', unset, 0⟩], unset, 2, 2, 1, '\x1b' :: '[' :: 'K' :: []⟩) := by
  have h := (claim_C7_amended
    ⟨[⟨some 'a', unset, 0⟩, ⟨some 'b', unset, 1⟩], unset, 2, 2, 1,
      '\x1b' :: '[' :: 'K' :: []⟩ [] 1 (by decide) (by decide)).1 rfl
  rw [h.1]
  rfl

/-- C9 counterexample: for input `"\r"` the stored result is the single
trailing attribute-only record (length 1) while the internal cursor is 0, yet
the reported cursor is 0, not `1 - 0`: the reported cursor is computed from
the buffer length before that record is appended. -/
theorem claim_C9_counterexample :
    (ansiReset ['\x0d'] none).map AnsiOut.cursor = some 0 ∧
    (ansiReset ['\x0d'] none).map (fun o => o.result.length) = some 1 ∧
    (runLoop (initState ['\x0d'] none)).map PState.cursor = some 0 ∧
    ¬ ((0 : Int) = (1 : Int) - 0) := by
  refine ⟨by decide, by decide, by decide, by decide⟩

/-- C9 amended: the reported cursor equals the length of the buffer at the end
of the dispatch loop (before the trailing attribute-only record is appended)
minus the internal cursor; in particular an internal cursor at the end of that
buffer reports 0. -/
theorem claim_C9_amended (t : List Char) (c : Option Attrs) (st : PState) (out : AnsiOut)
    (h1 : runLoop (initState t c) = some st) (h2 : ansiReset t c = some out) :
    out.cursor = (st.result.length : Int) - st.cursor ∧
    (st.cursor = (st.result.length : Int) → out.cursor = 0) := by
  unfold ansiReset at h2
  rw [h1] at h2
  simp only [Option.some.injEq] at h2
  constructor
  · rw [← h2]
  · intro hc
    rw [← h2]
    show (st.result.length : Int) - st.cursor = 0
    rw [hc]
    omega

/-- C9 witness: `"AB"` parses to a two-record buffer with the internal cursor
at its end, and the reported cursor is 0. -/
theorem claim_C9_witness :
    (⟨[⟨some 'A', unset, 0⟩, ⟨some 'B', unset, 1⟩], 0⟩ : AnsiOut).cursor =
      (([⟨some 'A', unset, 0⟩, ⟨some 'B', unset, 1⟩] : List Record).length : Int) - 2 ∧
    ((2 : Int) = (([⟨some 'A', unset, 0⟩, ⟨some 'B', unset, 1⟩] : List Record).length : Int) →
      (⟨[⟨some 'A', unset, 0⟩, ⟨some 'B', unset, 1⟩], 0⟩ : AnsiOut).cursor = 0) :=
  claim_C9_amended ['A', 'B'] none
    ⟨[⟨some 'A', unset, 0⟩, ⟨some 'B', unset, 1⟩], unset, 2, 2, 2, []⟩
    ⟨[⟨some 'A', unset, 0⟩, ⟨some 'B', unset, 1⟩], 0⟩ (by decide) (by decide)

/-! ### C3: the markup parser's offsets -/

theorem matchMarkup_shape {t : List Char} {tok : MarkupTok}
    (h : matchMarkup t = some tok) : ∃ rest, t = '$' :: '\x7b' :: rest := by
  rw [matchMarkup.eq_def] at h
  split at h
  · next rest => exact ⟨rest, rfl⟩
  · exact absurd h (by simp)

theorem markupRem_length_lt {t : List Char} {tok : MarkupTok}
    (h : matchMarkup t = some tok) : (markupRem t tok).length < t.length := by
  obtain ⟨rest, rfl⟩ := matchMarkup_shape h
  simp only [markupRem, List.length_drop, List.length_cons]
  omega

theorem asciiLoopF_congr : ∀ (f g : Nat) (t : List Char) (a : Attrs) (o lo : Nat),
    t.length ≤ f → t.length ≤ g → asciiLoopF f t a o lo = asciiLoopF g t a o lo := by
  intro f
  induction f with
  | zero =>
    intro g t a o lo hf _
    have ht : t = [] := List.length_eq_zero.mp (Nat.le_zero.mp hf)
    cases g <;> simp [asciiLoopF, ht]
  | succ f ih =>
    intro g t a o lo hf hg
    cases g with
    | zero =>
      have ht : t = [] := List.length_eq_zero.mp (Nat.le_zero.mp hg)
      simp [asciiLoopF, ht]
    | succ g =>
      cases t with
      | nil => simp [asciiLoopF]
      | cons ch rest =>
        simp only [List.length_cons] at hf hg
        cases hm : matchMarkup (ch :: rest) with
        | none =>
          simp only [asciiLoopF, hm]
          rw [ih g rest a (o + 1) (o + 1) (by omega) (by omega)]
        | some tok =>
          have hlt := markupRem_length_lt hm
          simp only [List.length_cons] at hlt
          simp only [asciiLoopF, hm]
          exact ih g (markupRem (ch :: rest) tok) tok.attrs
            (o + (3 + tok.content.length)) lo (by omega) (by omega)

/-- C3 counterexample: the offsets stored by the markup parser are raw-text
offsets, not rendered positions: `$\x7b1\x7dHi` yields the records
`('H', (1, 0, unset), 0)` and `('i', (1, 0, unset), 5)` — not offset 1 for
`'i'` as the claim states. -/
theorem claim_C3_counterexample :
    asciiReset ('$' :: '\x7b' :: '1' :: '\x7d' :: 'H' :: 'i' :: []) none =
      ⟨[⟨some 'H', ⟨some 1, some 0, none⟩, 0⟩, ⟨some 'i', ⟨some 1, some 0, none⟩, 5⟩], 2⟩ ∧
    ¬ asciiReset ('$' :: '\x7b' :: '1' :: '\x7d' :: 'H' :: 'i' :: []) none =
      ⟨[⟨some 'H', ⟨some 1, some 0, none⟩, 0⟩, ⟨some 'i', ⟨some 1, some 0, none⟩, 1⟩], 2⟩ := by
  constructor <;> decide

/-- C3 amended: a markup token emits no record and leaves the pending record
offset (`last_offset`) unchanged while advancing the raw-offset counter by the
full token length `3 + len(content)`, so record offsets are raw-text positions
(the offset just after the previously consumed literal character); in
particular `$\x7b1\x7dHi` yields `('H', (1, 0, unset), 0)` and
`('i', (1, 0, unset), 5)`. -/
theorem claim_C3_amended :
    (asciiReset ('$' :: '\x7b' :: '1' :: '\x7d' :: 'H' :: 'i' :: []) none =
      ⟨[⟨some 'H', ⟨some 1, some 0, none⟩, 0⟩, ⟨some 'i', ⟨some 1, some 0, none⟩, 5⟩], 2⟩) ∧
    (∀ (t : List Char) (tok : MarkupTok) (a : Attrs) (o lo : Nat),
      matchMarkup t = some tok →
      asciiLoop t a o lo =
        asciiLoop (markupRem t tok) tok.attrs (o + (3 + tok.content.length)) lo) := by
  refine ⟨by decide, ?_⟩
  intro t tok a o lo hm
  obtain ⟨rest, rfl⟩ := matchMarkup_shape hm
  have hlt := markupRem_length_lt hm
  simp only [List.length_cons] at hlt
  unfold asciiLoop
  simp only [List.length_cons]
  rw [show rest.length + 1 + 1 = (rest.length + 1) + 1 from rfl]
  simp only [asciiLoopF, hm]
  exact asciiLoopF_congr (rest.length + 1)
    (markupRem ('$' :: '\x7b' :: rest) tok).length
    (markupRem ('$' :: '\x7b' :: rest) tok) tok.attrs
    (o + (3 + tok.content.length)) lo (by omega) (le_refl _)

/-- C3 witness: the markup step applied to the concrete token `$\x7b2\x7d`
followed by `X`. -/
theorem claim_C3_witness :
    asciiLoop ('$' :: '\x7b' :: '2' :: '\x7d' :: 'X' :: []) unset 0 0 =
      asciiLoop (markupRem ('$' :: '\x7b' :: '2' :: '\x7d' :: 'X' :: [])
          ⟨['2'], ⟨some 2, some 0, none⟩⟩)
        (⟨['2'], ⟨some 2, some 0, none⟩⟩ : MarkupTok).attrs
        (0 + (3 + (⟨['2'], ⟨some 2, some 0, none⟩⟩ : MarkupTok).content.length)) 0 :=
  claim_C3_amended.2 ('$' :: '\x7b' :: '2' :: '\x7d' :: 'X' :: [])
    ⟨['2'], ⟨some 2, some 0, none⟩⟩ unset 0 0 (by decide)

/-! ## C1: the `normalize` round trip

The development below characterises the canonical string produced by
`normalize` and re-runs the dispatch loop over it. First, decimal rendering
inverts `pyInt`. -/

theorem natDigitsAux_acc : ∀ (f n : Nat) (acc : List Char),
    natDigitsAux f n acc = natDigitsAux f n [] ++ acc := by
  intro f
  induction f with
  | zero => intro n acc; rfl
  | succ f ih =>
    intro n acc
    by_cases h : n < 10
    · simp [natDigitsAux, h]
    · simp only [natDigitsAux, if_neg h]
      rw [ih (n / 10) (digitChar (n % 10) :: acc), ih (n / 10) [digitChar (n % 10)]]
      simp

theorem digitChar_mem {k : Nat} (h : k < 10) : digitChar k ∈ digitList := by
  interval_cases k <;> decide

theorem digitChar_toNat {k : Nat} (h : k < 10) : (digitChar k).toNat = 48 + k := by
  interval_cases k <;> decide

/-- The facts about digit characters the development needs, checked once over
the concrete ten-element list. -/
theorem digitList_facts : ∀ c ∈ digitList, c.isDigit = true ∧ isFinalByte c = false ∧
    c ≠ ';' ∧ isPyWS c = false ∧ c ≠ '+' ∧ c ≠ '-' ∧ 31 < c.toNat := by decide

theorem natDigitsAux_subset : ∀ (f n : Nat), n < f → ∀ c ∈ natDigitsAux f n [], c ∈ digitList := by
  intro f
  induction f with
  | zero => intro n hn; omega
  | succ f ih =>
    intro n hn c hc
    by_cases h : n < 10
    · simp [natDigitsAux, if_pos h] at hc
      rw [hc]
      exact digitChar_mem h
    · simp only [natDigitsAux, if_neg h] at hc
      rw [natDigitsAux_acc] at hc
      rcases List.mem_append.mp hc with h1 | h1
      · exact ih (n / 10) (by omega) c h1
      · have : c = digitChar (n % 10) := by simpa using h1
        rw [this]
        exact digitChar_mem (Nat.mod_lt _ (by omega))

theorem natDigits_subset {n : Nat} : ∀ c ∈ natDigits n, c ∈ digitList :=
  natDigitsAux_subset (n + 1) n (Nat.lt_succ_self n)

theorem natDigits_ne_nil (n : Nat) : natDigits n ≠ [] := by
  unfold natDigits
  cases f : n + 1 with
  | zero => omega
  | succ f =>
    by_cases h : n < 10
    · simp [natDigitsAux, h]
    · simp only [natDigitsAux, if_neg h]
      rw [natDigitsAux_acc]
      simp

theorem valDigits_append (xs : List Char) (c : Char) :
    valDigits (xs ++ [c]) = 10 * valDigits xs + (c.toNat - 48) := by
  simp [valDigits, List.foldl_append]

theorem valDigits_natDigitsAux : ∀ (f n : Nat), n < f → valDigits (natDigitsAux f n []) = n := by
  intro f
  induction f with
  | zero => intro n hn; omega
  | succ f ih =>
    intro n hn
    by_cases h : n < 10
    · simp only [natDigitsAux, if_pos h]
      have := digitChar_toNat h
      simp [valDigits, this]
    · simp only [natDigitsAux, if_neg h]
      rw [natDigitsAux_acc, valDigits_append, ih (n / 10) (by omega),
        digitChar_toNat (Nat.mod_lt _ (by omega))]
      omega

theorem valDigits_natDigits (n : Nat) : valDigits (natDigits n) = n :=
  valDigits_natDigitsAux (n + 1) n (Nat.lt_succ_self n)

theorem dropWhileWS_id : ∀ (l : List Char), (∀ c ∈ l, isPyWS c = false) →
    l.dropWhile isPyWS = l := by
  intro l h
  cases l with
  | nil => rfl
  | cons c cs =>
    rw [List.dropWhile_cons, if_neg]
    simp [h c (by simp)]

theorem stripWS_id (l : List Char) (h : ∀ c ∈ l, isPyWS c = false) : stripWS l = l := by
  unfold stripWS
  rw [dropWhileWS_id l h, dropWhileWS_id l.reverse (by intro c hc; exact h c (by simpa using hc))]
  simp

theorem pyInt_natDigits (n : Nat) : pyInt (natDigits n) = some (n : Int) := by
  have hsub := @natDigits_subset n
  have hs : stripWS (natDigits n) = natDigits n :=
    stripWS_id _ fun c hc => (digitList_facts c (hsub c hc)).2.2.2.1
  unfold pyInt
  rw [hs]
  cases hd : natDigits n with
  | nil => exact absurd hd (natDigits_ne_nil n)
  | cons c cs =>
    have hcmem : c ∈ digitList := hsub c (by rw [hd]; simp)
    have hfacts := digitList_facts c hcmem
    dsimp only
    rw [if_neg hfacts.2.2.2.2.1, if_neg hfacts.2.2.2.2.2.1, if_pos]
    · rw [← hd, valDigits_natDigits]
    · rw [← hd]
      rw [List.all_eq_true]
      intro c' hc'
      exact ((digitList_facts c' (hsub c' hc')).1 : _)

theorem pyInt_intStr (v : Int) : pyInt (intStr v) = some v := by
  by_cases hv : v < 0
  · unfold intStr
    rw [if_pos hv]
    have hsub := @natDigits_subset (-v).toNat
    have hall : ∀ c ∈ '-' :: natDigits (-v).toNat, isPyWS c = false := by
      intro c hc
      rcases List.mem_cons.mp hc with rfl | h
      · decide
      · exact (digitList_facts c (hsub c h)).2.2.2.1
    unfold pyInt
    rw [stripWS_id _ hall]
    dsimp only
    rw [if_neg (by decide), if_pos rfl, if_pos]
    · rw [valDigits_natDigits]
      congr 1
      omega
    · rw [Bool.and_eq_true]
      constructor
      · simp [natDigits_ne_nil]
      · rw [List.all_eq_true]
        intro c' hc'
        exact ((digitList_facts c' (hsub c' hc')).1 : _)
  · unfold intStr
    rw [if_neg hv, pyInt_natDigits]
    congr 1
    omega

/-! ### Splitting the emitted SGR parameter field -/

theorem pySplit_ne_nil (sep : Char) : ∀ l, pySplit sep l ≠ [] := by
  intro l
  cases l with
  | nil => simp [pySplit]
  | cons c cs =>
    simp only [pySplit]
    by_cases h : c = sep <;> simp [h]

theorem pySplit_sep_free (sep : Char) : ∀ l, (∀ c ∈ l, c ≠ sep) → pySplit sep l = [l] := by
  intro l
  induction l with
  | nil => intro _; rfl
  | cons c cs ih =>
    intro h
    simp only [pySplit, if_neg (h c (by simp))]
    rw [ih fun x hx => h x (by simp [hx])]
    rfl

theorem pySplit_cons_sep (sep : Char) (rest : List Char) :
    pySplit sep (sep :: rest) = [] :: pySplit sep rest := by
  simp [pySplit]

theorem pySplit_cons_ne (sep c : Char) (rest : List Char) (h : c ≠ sep) :
    pySplit sep (c :: rest) =
      (c :: (pySplit sep rest).headD []) :: (pySplit sep rest).tail := by
  simp [pySplit, h]

theorem pySplit_append_sep (sep : Char) : ∀ x y,
    pySplit sep (x ++ sep :: y) = pySplit sep x ++ pySplit sep y := by
  intro x
  induction x with
  | nil =>
    intro y
    rw [List.nil_append, pySplit_cons_sep]
    rfl
  | cons c cs ih =>
    intro y
    by_cases h : c = sep
    · subst h
      rw [List.cons_append, pySplit_cons_sep, pySplit_cons_sep, ih]
      rfl
    · rw [List.cons_append, pySplit_cons_ne sep c _ h, pySplit_cons_ne sep c _ h, ih]
      obtain ⟨g, gs, hcs⟩ : ∃ g gs, pySplit sep cs = g :: gs := by
        cases hx : pySplit sep cs with
        | nil => exact absurd hx (pySplit_ne_nil sep cs)
        | cons g gs => exact ⟨g, gs, rfl⟩
      rw [hcs]
      simp

theorem pySplit_joinSemi : ∀ cs : List (List Char), cs ≠ [] →
    pySplit ';' (joinSemi cs) = (cs.map (pySplit ';')).flatten := by
  intro cs
  induction cs with
  | nil => intro h; exact absurd rfl h
  | cons x xs ih =>
    intro _
    cases xs with
    | nil => simp [joinSemi]
    | cons y ys =>
      simp only [joinSemi, pySplit_append_sep, ih (by simp)]
      simp

theorem intStr_chars {v : Int} : ∀ c ∈ intStr v, c ∈ digitList ∨ c = '-' := by
  intro c hc
  unfold intStr at hc
  by_cases hv : v < 0
  · rw [if_pos hv] at hc
    rcases List.mem_cons.mp hc with rfl | h
    · right; rfl
    · left; exact natDigits_subset c h
  · rw [if_neg hv] at hc
    left
    exact natDigits_subset c hc

theorem intStr_no_semi {v : Int} : ∀ c ∈ intStr v, c ≠ ';' := by
  intro c hc
  rcases intStr_chars c hc with h | rfl
  · exact (digitList_facts c h).2.2.1
  · decide

theorem intStr_nonfinal {v : Int} : ∀ c ∈ intStr v, isFinalByte c = false := by
  intro c hc
  rcases intStr_chars c hc with h | rfl
  · exact (digitList_facts c h).2.1
  · decide

theorem pySplit_chunkFg (w : Int) :
    pySplit ';' (['3', '8', ';', '5', ';'] ++ intStr w) = [['3', '8'], ['5'], intStr w] := by
  have h1 : ['3', '8', ';', '5', ';'] ++ intStr w =
      ['3', '8'] ++ ';' :: (['5'] ++ ';' :: intStr w) := by simp
  rw [h1, pySplit_append_sep, pySplit_append_sep,
    pySplit_sep_free ';' (intStr w) intStr_no_semi]
  have e1 : pySplit ';' ['3', '8'] = [['3', '8']] := by decide
  have e2 : pySplit ';' ['5'] = [['5']] := by decide
  rw [e1, e2]
  rfl

theorem pySplit_chunkBg (w : Int) :
    pySplit ';' (['4', '8', ';', '5', ';'] ++ intStr w) = [['4', '8'], ['5'], intStr w] := by
  have h1 : ['4', '8', ';', '5', ';'] ++ intStr w =
      ['4', '8'] ++ ';' :: (['5'] ++ ';' :: intStr w) := by simp
  rw [h1, pySplit_append_sep, pySplit_append_sep,
    pySplit_sep_free ';' (intStr w) intStr_no_semi]
  have e1 : pySplit ';' ['4', '8'] = [['4', '8']] := by decide
  have e2 : pySplit ';' ['5'] = [['5']] := by decide
  rw [e1, e2]
  rfl

/-! ### Applying an emitted SGR difference recovers the target triple -/

theorem fold_fgAtoms (x : Attrs) (sk : Int) (ai : Nat) (w : Int) :
    List.foldl sgrParam (topState x sk ai) [['3', '8'], ['5'], intStr w] =
      topState { x with fg := some w } sk 0 := by
  have h38 : (pyInt ['3', '8']).getD 0 = 38 := by decide
  have h5 : (pyInt ['5']).getD 0 = 5 := by decide
  have hw : (pyInt (intStr w)).getD 0 = w := by rw [pyInt_intStr]; rfl
  simp only [List.foldl_cons, List.foldl_nil, sgrParam, h38, h5, hw]
  have s1 : sgrParamInt (topState x sk ai) 38 = ⟨x, true, false, false, sk, 0⟩ := by
    simp [sgrParamInt, topState]
  rw [s1]
  have s2 : sgrParamInt ⟨x, true, false, false, sk, 0⟩ 5 =
      ⟨x, false, true, false, sk, 0⟩ := by
    simp [sgrParamInt]
  rw [s2]
  have s3 : sgrParamInt ⟨x, false, true, false, sk, 0⟩ w =
      ⟨{ x with fg := some w }, false, false, false, sk, 0⟩ := by
    simp [sgrParamInt, writeAttr]
  rw [s3]
  rfl

theorem fold_bgAtoms (x : Attrs) (sk : Int) (ai : Nat) (w : Int) :
    List.foldl sgrParam (topState x sk ai) [['4', '8'], ['5'], intStr w] =
      topState { x with bg := some w } sk 2 := by
  have h48 : (pyInt ['4', '8']).getD 0 = 48 := by decide
  have h5 : (pyInt ['5']).getD 0 = 5 := by decide
  have hw : (pyInt (intStr w)).getD 0 = w := by rw [pyInt_intStr]; rfl
  simp only [List.foldl_cons, List.foldl_nil, sgrParam, h48, h5, hw]
  have s1 : sgrParamInt (topState x sk ai) 48 = ⟨x, true, false, false, sk, 2⟩ := by
    simp [sgrParamInt, topState]
  rw [s1]
  have s2 : sgrParamInt ⟨x, true, false, false, sk, 2⟩ 5 =
      ⟨x, false, true, false, sk, 2⟩ := by
    simp [sgrParamInt]
  rw [s2]
  have s3 : sgrParamInt ⟨x, false, true, false, sk, 2⟩ w =
      ⟨{ x with bg := some w }, false, false, false, sk, 2⟩ := by
    simp [sgrParamInt, writeAttr]
  rw [s3]
  rfl

theorem fold_styleBold (x : Attrs) (sk : Int) (ai : Nat) :
    List.foldl sgrParam (topState x sk ai) [['1']] =
      topState { x with style := some A_BOLD } sk ai := by
  have h1 : (pyInt ['1']).getD 0 = 1 := by decide
  simp only [List.foldl_cons, List.foldl_nil, sgrParam, h1]
  simp [sgrParamInt, topState]

theorem fold_styleNormal (x : Attrs) (sk : Int) (ai : Nat) :
    List.foldl sgrParam (topState x sk ai) [['2']] =
      topState { x with style := some A_NORMAL } sk ai := by
  have h1 : (pyInt ['2']).getD 0 = 2 := by decide
  simp only [List.foldl_cons, List.foldl_nil, sgrParam, h1]
  simp [sgrParamInt, topState]

theorem fold_styleReverse (x : Attrs) (sk : Int) (ai : Nat) :
    List.foldl sgrParam (topState x sk ai) [['7']] =
      topState { x with style := some A_REVERSE } sk ai := by
  have h1 : (pyInt ['7']).getD 0 = 7 := by decide
  simp only [List.foldl_cons, List.foldl_nil, sgrParam, h1]
  simp [sgrParamInt, topState]

theorem fold_cond_fg (a b x : Attrs) (sk : Int) (ai : Nat)
    (hOK : (if a.fg ≠ b.fg then b.fg.isSome else true) = true) :
    ∃ ai2, List.foldl sgrParam (topState x sk ai)
        (((if a.fg ≠ b.fg then [['3', '8', ';', '5', ';'] ++ optIntStr b.fg]
           else []).map (pySplit ';')).flatten) =
      topState { x with fg := if a.fg ≠ b.fg then b.fg else x.fg } sk ai2 := by
  by_cases hc : a.fg = b.fg
  · refine ⟨ai, ?_⟩
    simp [hc]
  · rw [if_pos hc] at hOK
    obtain ⟨w, hw⟩ := Option.isSome_iff_exists.mp hOK
    refine ⟨0, ?_⟩
    rw [if_pos hc, if_pos hc, hw]
    simp only [optIntStr, List.map_cons, List.map_nil, List.flatten,
      pySplit_chunkFg, List.append_nil]
    rw [fold_fgAtoms]

theorem fold_cond_bg (a b x : Attrs) (sk : Int) (ai : Nat)
    (hOK : (if a.bg ≠ b.bg then b.bg.isSome else true) = true) :
    ∃ ai2, List.foldl sgrParam (topState x sk ai)
        (((if a.bg ≠ b.bg then [['4', '8', ';', '5', ';'] ++ optIntStr b.bg]
           else []).map (pySplit ';')).flatten) =
      topState { x with bg := if a.bg ≠ b.bg then b.bg else x.bg } sk ai2 := by
  by_cases hc : a.bg = b.bg
  · refine ⟨ai, ?_⟩
    simp [hc]
  · rw [if_pos hc] at hOK
    obtain ⟨w, hw⟩ := Option.isSome_iff_exists.mp hOK
    refine ⟨2, ?_⟩
    rw [if_pos hc, if_pos hc, hw]
    simp only [optIntStr, List.map_cons, List.map_nil, List.flatten,
      pySplit_chunkBg, List.append_nil]
    rw [fold_bgAtoms]

theorem fold_cond_style (a b x : Attrs) (sk : Int) (ai : Nat)
    (hOK : (if a.style ≠ b.style then
        (decide (b.style = some A_BOLD) || decide (b.style = some A_NORMAL) ||
          decide (b.style = some A_REVERSE))
      else true) = true) :
    List.foldl sgrParam (topState x sk ai) (((styleChunk a b).map (pySplit ';')).flatten) =
      topState { x with style := if a.style ≠ b.style then b.style else x.style } sk ai := by
  by_cases hc : a.style = b.style
  · simp [styleChunk, hc]
  · rw [if_pos hc] at hOK
    simp only [Bool.or_eq_true, decide_eq_true_eq] at hOK
    rw [if_pos hc]
    unfold styleChunk
    rw [if_pos hc]
    rcases hOK with (hb | hb) | hb <;> rw [hb]
    · have e1 : pySplit ';' ['1'] = [['1']] := by decide
      simp only [if_pos rfl, List.map_cons, List.map_nil, List.flatten, e1,
        List.append_nil]
      rw [fold_styleBold]
    · rw [if_neg (by decide), if_pos rfl]
      have e1 : pySplit ';' ['2'] = [['2']] := by decide
      simp only [List.map_cons, List.map_nil, List.flatten, e1, List.append_nil]
      rw [fold_styleNormal]
    · rw [if_neg (by decide), if_neg (by decide), if_pos rfl]
      have e1 : pySplit ';' ['7'] = [['7']] := by decide
      simp only [List.map_cons, List.map_nil, List.flatten, e1, List.append_nil]
      rw [fold_styleReverse]

theorem formatChunks_ne_nil (a b : Attrs) (hne : a ≠ b)
    (hstOK : (if a.style ≠ b.style then
        (decide (b.style = some A_BOLD) || decide (b.style = some A_NORMAL) ||
          decide (b.style = some A_REVERSE))
      else true) = true) :
    formatChunks a b ≠ [] := by
  intro hL
  unfold formatChunks at hL
  rcases List.append_eq_nil.mp hL with ⟨h12, hB⟩
  rcases List.append_eq_nil.mp h12 with ⟨hF, hS⟩
  have hfg : a.fg = b.fg := by
    by_contra hc
    rw [if_pos hc] at hF
    exact absurd hF (by simp)
  have hbg : a.bg = b.bg := by
    by_contra hc
    rw [if_pos hc] at hB
    exact absurd hB (by simp)
  have hst : a.style = b.style := by
    by_contra hc
    rw [if_pos hc] at hstOK
    unfold styleChunk at hS
    rw [if_pos hc] at hS
    simp only [Bool.or_eq_true, decide_eq_true_eq] at hstOK
    rcases hstOK with (hb | hb) | hb <;> rw [hb] at hS <;>
      simp [A_BOLD, A_NORMAL, A_REVERSE] at hS
  exact hne (by cases a; cases b; simp_all)

theorem applySGR_diff (a b : Attrs) (hOK : stepOKb a b = true) (hne : a ≠ b) :
    applySGR a (sgrParams a b) = b := by
  rw [stepOKb] at hOK
  simp only [Bool.and_eq_true] at hOK
  obtain ⟨⟨hfgOK, hbgOK⟩, hstOK⟩ := hOK
  unfold applySGR sgrParams
  rw [pySplit_joinSemi _ (formatChunks_ne_nil a b hne hstOK)]
  rw [show formatChunks a b =
      (if a.fg ≠ b.fg then [['3', '8', ';', '5', ';'] ++ optIntStr b.fg] else []) ++
        styleChunk a b ++
        (if a.bg ≠ b.bg then [['4', '8', ';', '5', ';'] ++ optIntStr b.bg] else [])
    from rfl]
  rw [List.map_append, List.map_append, List.flatten_append, List.flatten_append,
    List.foldl_append, List.foldl_append]
  rw [show (⟨a, false, false, false, 0, 0⟩ : SgrState) = topState a 0 0 from rfl]
  obtain ⟨ai1, h1⟩ := fold_cond_fg a b a 0 0 hfgOK
  rw [h1, fold_cond_style a b _ 0 ai1 hstOK]
  obtain ⟨ai2, h2⟩ := fold_cond_bg a b _ 0 ai1 hbgOK
  rw [h2]
  have efg : (if a.fg ≠ b.fg then b.fg else a.fg) = b.fg := by
    by_cases h : a.fg = b.fg
    · rw [if_neg (fun hn => hn h), h]
    · rw [if_pos h]
  have est : (if a.style ≠ b.style then b.style else a.style) = b.style := by
    by_cases h : a.style = b.style
    · rw [if_neg (fun hn => hn h), h]
    · rw [if_pos h]
  have ebg : (if a.bg ≠ b.bg then b.bg else a.bg) = b.bg := by
    by_cases h : a.bg = b.bg
    · rw [if_neg (fun hn => hn h), h]
    · rw [if_pos h]
  dsimp only [topState]
  rw [show b = (⟨b.fg, b.style, b.bg⟩ : Attrs) from rfl]
  simp only [Attrs.mk.injEq]
  exact ⟨efg, est, ebg⟩

/-! ### The emitted parameter field contains no CSI final byte -/

theorem mem_joinSemi : ∀ (cs : List (List Char)) (c : Char), c ∈ joinSemi cs →
    (∃ x ∈ cs, c ∈ x) ∨ c = ';' := by
  intro cs
  induction cs with
  | nil => intro c hc; simp [joinSemi] at hc
  | cons x xs ih =>
    intro c hc
    cases xs with
    | nil =>
      simp only [joinSemi] at hc
      exact Or.inl ⟨x, by simp, hc⟩
    | cons y ys =>
      simp only [joinSemi] at hc
      rcases List.mem_append.mp hc with h1 | h2
      · exact Or.inl ⟨x, by simp, h1⟩
      · rcases List.mem_cons.mp h2 with rfl | h3
        · exact Or.inr rfl
        · rcases ih c h3 with ⟨z, hz, hcz⟩ | hsemi
          · exact Or.inl ⟨z, by simp [hz], hcz⟩
          · exact Or.inr hsemi

theorem formatChunks_chars (a b : Attrs) (hOK : stepOKb a b = true) :
    ∀ x ∈ formatChunks a b, ∀ c ∈ x, isFinalByte c = false := by
  rw [stepOKb] at hOK
  simp only [Bool.and_eq_true] at hOK
  obtain ⟨⟨hfgOK, hbgOK⟩, hstOK⟩ := hOK
  intro x hx c hc
  unfold formatChunks at hx
  rcases List.mem_append.mp hx with hx1 | hxB
  · rcases List.mem_append.mp hx1 with hxF | hxS
    · by_cases hfg : a.fg = b.fg
      · rw [if_neg (fun hn => hn hfg)] at hxF
        simp at hxF
      · rw [if_pos hfg] at hxF
        rw [if_pos hfg] at hfgOK
        obtain ⟨w, hw⟩ := Option.isSome_iff_exists.mp hfgOK
        simp only [List.mem_singleton] at hxF
        subst hxF
        rcases List.mem_append.mp hc with h5 | hw'
        · fin_cases h5 <;> decide
        · rw [hw] at hw'
          exact intStr_nonfinal c hw'
    · by_cases hst : a.style = b.style
      · rw [styleChunk, if_neg (fun hn => hn hst)] at hxS
        simp at hxS
      · rw [styleChunk, if_pos hst] at hxS
        rw [if_pos hst] at hstOK
        simp only [Bool.or_eq_true, decide_eq_true_eq] at hstOK
        rcases hstOK with (hb | hb) | hb <;> rw [hb] at hxS <;>
          simp only [A_BOLD, A_NORMAL, A_REVERSE] at hxS <;>
          norm_num at hxS <;> subst hxS <;>
          (rcases List.mem_singleton.mp hc with rfl; decide)
  · by_cases hbg : a.bg = b.bg
    · rw [if_neg (fun hn => hn hbg)] at hxB
      simp at hxB
    · rw [if_pos hbg] at hxB
      rw [if_pos hbg] at hbgOK
      obtain ⟨w, hw⟩ := Option.isSome_iff_exists.mp hbgOK
      simp only [List.mem_singleton] at hxB
      subst hxB
      rcases List.mem_append.mp hc with h5 | hw'
      · fin_cases h5 <;> decide
      · rw [hw] at hw'
        exact intStr_nonfinal c hw'

theorem sgrParams_nonfinal (a b : Attrs) (hOK : stepOKb a b = true) :
    ∀ c ∈ sgrParams a b, isFinalByte c = false := by
  intro c hc
  unfold sgrParams at hc
  rcases mem_joinSemi _ c hc with ⟨x, hx, hcx⟩ | rfl
  · exact formatChunks_chars a b hOK x hx c hcx
  · decide

/-! ### Every record the dispatch loop stores carries a printable glyph -/

theorem all_pyGetSlice {l : List Record} (p : Record → Bool) (i j : Int)
    (h : l.all p = true) : (pyGetSlice l i j).all p = true := by
  rw [List.all_eq_true] at h ⊢
  intro r hr
  exact h r (List.mem_of_mem_take (List.mem_of_mem_drop hr))

theorem all_pySetSlice {l : List Record} (p : Record → Bool) (i j : Int)
    (xs : List Record) (h : l.all p = true) (hxs : xs.all p = true) :
    (pySetSlice l i j xs).all p = true := by
  rw [List.all_eq_true] at h hxs ⊢
  intro r hr
  unfold pySetSlice at hr
  rcases List.mem_append.mp hr with h1 | h1
  · rcases List.mem_append.mp h1 with h2 | h2
    · exact h r (List.mem_of_mem_take h2)
    · exact hxs r h2
  · exact h r (List.mem_of_mem_drop h1)

theorem all_replicate_space (p : Record → Bool) (k : Nat) (a : Attrs) (o : Nat)
    (hp : p ⟨some ' ', a, o⟩ = true) :
    (List.replicate k (⟨some ' ', a, o⟩ : Record)).all p = true := by
  rw [List.all_eq_true]
  intro r hr
  rw [List.eq_of_mem_replicate hr]
  exact hp

theorem handleCSI_glyphs {st : PState} {params : List Char} {final : Char} {st' : PState}
    (h : handleCSI st params final = some st')
    (hg : st.result.all glyphOKb = true) : st'.result.all glyphOKb = true := by
  unfold handleCSI at h
  by_cases hm : final = 'm'
  · rw [if_pos hm] at h
    cases h
    exact hg
  · rw [if_neg hm] at h
    by_cases hk : final = 'K'
    · rw [if_pos hk] at h
      by_cases h0 : params = [] ∨ params = ['0']
      · rw [if_pos h0] at h
        cases h
        exact all_pyGetSlice _ _ _ hg
      · rw [if_neg h0] at h
        by_cases hp1 : params = ['1']
        · rw [if_pos hp1] at h
          cases h
          refine List.all_eq_true.mpr ?_
          intro r hr
          rcases List.mem_append.mp hr with h1 | h1
          · rw [List.eq_of_mem_replicate h1]; rfl
          · exact List.all_eq_true.mp (all_pyGetSlice _ _ _ hg) r h1
        · rw [if_neg hp1] at h
          by_cases hp2 : params = ['2']
          · rw [if_pos hp2] at h
            cases h
            exact all_replicate_space _ _ _ _ (by rfl)
          · rw [if_neg hp2] at h
            cases h
            exact hg
    · rw [if_neg hk] at h
      by_cases hP : final = 'P'
      · rw [if_pos hP] at h
        cases hip : (if params = [] then some 1 else pyInt params) with
        | none => simp only [hip] at h; cases h
        | some p =>
          simp only [hip] at h
          cases h
          refine List.all_eq_true.mpr ?_
          intro r hr
          rcases List.mem_append.mp hr with h1 | h1
          · exact List.all_eq_true.mp (all_pyGetSlice _ _ _ hg) r h1
          · exact List.all_eq_true.mp (all_pyGetSlice _ _ _ hg) r h1
      · rw [if_neg hP] at h
        by_cases hC : final = 'C'
        · rw [if_pos hC] at h
          cases hip : (if params = [] then some 1 else pyInt params) with
          | none => simp only [hip] at h; cases h
          | some p =>
            simp only [hip] at h
            cases h
            exact hg
        · rw [if_neg hC] at h
          by_cases hD : final = 'D'
          · rw [if_pos hD] at h
            cases hip : (if params = [] then some 1 else pyInt params) with
            | none => simp only [hip] at h; cases h
            | some p =>
              simp only [hip] at h
              cases h
              exact hg
          · rw [if_neg hD] at h
            cases h
            exact hg

theorem handleEscape_glyphs {st : PState} {n : Nat} {st' : PState}
    (h : handleEscape st = some (n, st'))
    (hg : st.result.all glyphOKb = true) : st'.result.all glyphOKb = true := by
  unfold handleEscape at h
  cases hm : matchCSI st.text with
  | none =>
    simp only [hm, Option.some.injEq, Prod.mk.injEq] at h
    rw [← h.2]
    exact hg
  | some pf =>
    obtain ⟨params, final⟩ := pf
    simp only [hm] at h
    cases hc : handleCSI st params final with
    | none => simp [hc] at h
    | some s2 =>
      simp only [hc, Option.map_some', Option.some.injEq, Prod.mk.injEq] at h
      rw [← h.2]
      exact handleCSI_glyphs hc hg

theorem ansiStep_glyphs {st st' : PState} (h : ansiStep st = some st')
    (hg : st.result.all glyphOKb = true) : st'.result.all glyphOKb = true := by
  unfold ansiStep at h
  cases ht : st.text with
  | nil =>
    simp only [ht] at h
    cases h
    exact hg
  | cons ch rest =>
    simp only [ht] at h
    by_cases h1 : 31 < ch.toNat
    · rw [if_pos h1] at h
      cases h
      refine all_pySetSlice _ _ _ _ hg ?_
      simp [glyphOKb, h1]
    · rw [if_neg h1] at h
      by_cases h2 : ch.toNat = 8
      · rw [if_pos h2] at h; cases h; exact hg
      · rw [if_neg h2] at h
        by_cases h3 : ch.toNat = 13
        · rw [if_pos h3] at h; cases h; exact hg
        · rw [if_neg h3] at h
          by_cases h4 : ch.toNat = 27
          · rw [if_pos h4] at h
            cases he : handleEscape st with
            | none => simp only [he] at h; cases h
            | some nst =>
              obtain ⟨n, st2⟩ := nst
              simp only [he] at h
              cases h
              show st2.result.all glyphOKb = true
              exact handleEscape_glyphs he hg
          · rw [if_neg h4] at h; cases h; exact hg

theorem runLoopF_glyphs : ∀ (f : Nat) (st st' : PState), runLoopF f st = some st' →
    st.result.all glyphOKb = true → st'.result.all glyphOKb = true := by
  intro f
  induction f with
  | zero =>
    intro st st' h hg
    unfold runLoopF at h
    split at h
    · cases h; exact hg
    · cases h
  | succ f ih =>
    intro st st' h hg
    unfold runLoopF at h
    split at h
    · cases h; exact hg
    · cases hs : ansiStep st with
      | none => rw [hs] at h; cases h
      | some st1 =>
        rw [hs] at h
        exact ih st1 st' h (ansiStep_glyphs hs hg)

theorem ansiReset_glyphs {t : List Char} {c : Option Attrs} {out : AnsiOut}
    (h : ansiReset t c = some out) : out.result.all glyphOKb = true := by
  unfold ansiReset at h
  cases hr : runLoop (initState t c) with
  | none => rw [hr] at h; cases h
  | some st =>
    rw [hr] at h
    simp only [Option.some.injEq] at h
    have hst : st.result.all glyphOKb = true :=
      runLoopF_glyphs _ _ _ hr (by rfl)
    rw [← h]
    by_cases hio : st.lastOffset ≠ st.offset
    · rw [if_pos hio]
      rw [List.all_append, Bool.and_eq_true]
      exact ⟨hst, by rfl⟩
    · rw [if_neg hio]
      exact hst

/-! ### Re-running the loop over the canonical string -/

theorem visPairs_append (l1 l2 : List Record) :
    visPairs (l1 ++ l2) = visPairs l1 ++ visPairs l2 := by
  simp [visPairs, List.filterMap_append]

theorem visPairs_cons (r : Record) (rs : List Record) :
    visPairs (r :: rs) = visPairs [r] ++ visPairs rs := by
  unfold visPairs
  rw [List.filterMap_cons, List.filterMap_cons]
  cases r.glyph <;> simp

theorem visPairs_marker (l : List Record) (a : Attrs) (o : Nat) :
    visPairs (l ++ [⟨none, a, o⟩]) = visPairs l := by
  rw [visPairs_append]
  simp [visPairs]

theorem normLoop_str : ∀ (rs : List Record) (attrs : Attrs) (curLen lastOff : Nat),
    (normLoop rs attrs curLen lastOff).1 = emitAll attrs rs := by
  intro rs
  induction rs with
  | nil => intro attrs curLen lastOff; rfl
  | cons r rs ih =>
    intro attrs curLen lastOff
    simp only [normLoop, emitAll, ih]
    rfl

theorem normalize_str (out : AnsiOut) :
    (normalize out).1 = emitAll unset out.result ++
      (if 0 < out.cursor then '\x1b' :: '[' :: (intStr out.cursor ++ ['D']) else []) := by
  unfold normalize
  dsimp only
  rw [normLoop_str]
  by_cases h : 0 < out.cursor
  · rw [if_pos h, if_pos h]
  · rw [if_neg h, if_neg h, List.append_nil]

theorem reparse_glyph_step (st : PState) (r : Record) (Y : List Char)
    (hattr : st.attributes = r.attrs) (hcur : st.cursor = (st.result.length : Int))
    (hg : glyphOKb r = true) (htext : st.text = glyphStr r ++ Y) :
    ∃ st1, runLoop st = runLoop st1 ∧ st1.attributes = r.attrs ∧
      st1.cursor = (st1.result.length : Int) ∧ st1.text = Y ∧
      visPairs st1.result = visPairs st.result ++ visPairs [r] := by
  cases hgl : r.glyph with
  | none =>
    refine ⟨st, rfl, hattr, hcur, ?_, ?_⟩
    · rw [htext]
      simp [glyphStr, hgl]
    · simp [visPairs, hgl]
  | some c =>
    have hc : 31 < c.toNat := by
      unfold glyphOKb at hg
      rw [hgl] at hg
      simpa using hg
    have htext' : st.text = c :: Y := by
      rw [htext]
      simp [glyphStr, hgl]
    have hstep : ansiStep st = some { st with
        result := st.result ++ [(⟨some c, st.attributes, st.lastOffset⟩ : Record)],
        cursor := st.cursor + 1, offset := st.offset + 1, lastOffset := st.offset + 1,
        text := Y } := by
      unfold ansiStep
      simp only [htext']
      rw [if_pos hc, pySetSlice_append _ _ (le_of_eq hcur.symm)]
    refine ⟨_, runLoop_eq_step (by rw [htext']; simp) hstep, hattr, ?_, rfl, ?_⟩
    · show st.cursor + 1 =
        ((st.result ++ [(⟨some c, st.attributes, st.lastOffset⟩ : Record)]).length : Int)
      rw [hcur]
      simp
    · show visPairs (st.result ++ [(⟨some c, st.attributes, st.lastOffset⟩ : Record)]) =
        visPairs st.result ++ visPairs [r]
      rw [visPairs_append]
      congr 1
      simp [visPairs, hgl, hattr]

theorem drop_len_append_cons (l1 : List Char) (a : Char) (l2 : List Char) :
    (l1 ++ a :: l2).drop (l1.length + 1) = l2 := by
  induction l1 with
  | nil => simp
  | cons x xs ih => simp [ih]

theorem reparse_sgr_step (st : PState) (b : Attrs) (Y : List Char)
    (hOK : stepOKb st.attributes b = true) (hne : st.attributes ≠ b)
    (htext : st.text = sgrEmit st.attributes b ++ Y) :
    ∃ st1, runLoop st = runLoop st1 ∧ st1.attributes = b ∧
      st1.result = st.result ∧ st1.cursor = st.cursor ∧ st1.text = Y := by
  have htext' : st.text = '\x1b' :: '[' :: (sgrParams st.attributes b ++ 'm' :: Y) := by
    rw [htext]
    simp [sgrEmit]
  have hm : matchCSI st.text = some (sgrParams st.attributes b, 'm') := by
    rw [htext']
    exact matchCSI_of _ 'm' Y (sgrParams_nonfinal _ _ hOK) (by decide)
  have he : handleEscape st = some ((sgrParams st.attributes b).length + 3,
      { st with attributes := applySGR st.attributes (sgrParams st.attributes b) }) := by
    unfold handleEscape
    rw [hm]
    simp only [handleCSI, if_pos rfl]
    rfl
  have hdrop : st.text.drop ((sgrParams st.attributes b).length + 3) = Y := by
    rw [htext']
    rw [show (sgrParams st.attributes b).length + 3 =
      ((sgrParams st.attributes b).length + 1) + 1 + 1 from rfl]
    rw [List.drop_succ_cons, List.drop_succ_cons]
    exact drop_len_append_cons _ _ _
  have hstep : ansiStep st = some { st with
      attributes := applySGR st.attributes (sgrParams st.attributes b),
      offset := st.offset + ((sgrParams st.attributes b).length + 3),
      text := Y } := by
    unfold ansiStep
    simp only [htext']
    rw [if_neg (by decide), if_neg (by decide), if_neg (by decide), if_pos (by decide)]
    simp only [he]
    rw [← htext', hdrop]
  refine ⟨_, runLoop_eq_step (by rw [htext']; simp) hstep, ?_, rfl, rfl, rfl⟩
  exact applySGR_diff st.attributes b hOK hne

theorem reparse_D_step (st : PState) (n : Int) (hn : 0 < n)
    (htext : st.text = '\x1b' :: '[' :: (intStr n ++ ['D'])) :
    ∃ st1, runLoop st = some st1 ∧ st1.result = st.result ∧
      st1.attributes = st.attributes := by
  have hdigits : intStr n = natDigits n.toNat := by
    unfold intStr
    rw [if_neg (by omega)]
  have hm : matchCSI st.text = some (intStr n, 'D') := by
    rw [htext]
    exact matchCSI_of _ 'D' [] intStr_nonfinal (by decide)
  have hne : intStr n ≠ [] := by
    rw [hdigits]
    exact natDigits_ne_nil _
  have he : handleEscape st = some ((intStr n).length + 3,
      { st with cursor := st.cursor - n }) := by
    unfold handleEscape
    rw [hm]
    simp [handleCSI, hne, pyInt_intStr]
  have hdrop : st.text.drop ((intStr n).length + 3) = [] := by
    apply List.drop_of_length_le
    rw [htext]
    simp
  have hstep : ansiStep st = some { st with
      cursor := st.cursor - n,
      offset := st.offset + ((intStr n).length + 3),
      text := ([] : List Char) } := by
    unfold ansiStep
    simp only [htext]
    rw [if_neg (by decide), if_neg (by decide), if_neg (by decide), if_pos (by decide)]
    simp only [he]
    rw [← htext, hdrop]
  refine ⟨{ st with
      cursor := st.cursor - n,
      offset := st.offset + ((intStr n).length + 3),
      text := ([] : List Char) }, ?_, rfl, rfl⟩
  rw [runLoop_eq_step (by rw [htext]; simp) hstep]
  exact runLoop_eq_nil rfl

/-- Re-running the dispatch loop over the canonical emission for a record list
appends exactly the visible records, provided the attribute chain never
reverts a component to unset. -/
theorem reparse_run : ∀ (rs : List Record) (st : PState) (tail : List Char),
    st.cursor = (st.result.length : Int) →
    chainB st.attributes rs = true →
    rs.all glyphOKb = true →
    st.text = emitAll st.attributes rs ++ tail →
    ∃ st2, runLoop st = runLoop st2 ∧
      st2.attributes = lastAttrs st.attributes rs ∧
      st2.cursor = (st2.result.length : Int) ∧
      st2.text = tail ∧
      visPairs st2.result = visPairs st.result ++ visPairs rs := by
  intro rs
  induction rs with
  | nil =>
    intro st tail hcur _ _ htext
    refine ⟨st, rfl, rfl, hcur, ?_, by simp [visPairs]⟩
    rw [htext]
    rfl
  | cons r rs ih =>
    intro st tail hcur hchain hall htext
    rw [show chainB st.attributes (r :: rs) =
        (stepOKb st.attributes r.attrs && chainB r.attrs rs) from rfl,
      Bool.and_eq_true] at hchain
    obtain ⟨hOK, hchain'⟩ := hchain
    rw [List.all_cons, Bool.and_eq_true] at hall
    obtain ⟨hgr, hall'⟩ := hall
    rw [show emitAll st.attributes (r :: rs) =
        (if st.attributes ≠ r.attrs then sgrEmit st.attributes r.attrs else []) ++
          glyphStr r ++ emitAll r.attrs rs from rfl] at htext
    by_cases hne : st.attributes = r.attrs
    · rw [if_neg (fun hn => hn hne), List.nil_append, List.append_assoc] at htext
      obtain ⟨st1, e1, ha1, hc1, ht1, hv1⟩ := reparse_glyph_step st r _ hne hcur hgr htext
      obtain ⟨st2, e2, ha2, hc2, ht2, hv2⟩ :=
        ih st1 tail hc1 (by rw [ha1]; exact hchain') hall' (by rw [ht1, ha1])
      refine ⟨st2, e1.trans e2, ?_, hc2, ht2, ?_⟩
      · rw [ha2, ha1]
        rfl
      · rw [hv2, hv1, List.append_assoc, visPairs_cons r rs]
    · rw [if_pos hne, List.append_assoc, List.append_assoc] at htext
      obtain ⟨stm, em, ham, hrm, hcm, htm⟩ :=
        reparse_sgr_step st r.attrs _ hOK hne htext
      have hcurm : stm.cursor = (stm.result.length : Int) := by
        rw [hcm, hrm]
        exact hcur
      obtain ⟨st1, e1, ha1, hc1, ht1, hv1⟩ :=
        reparse_glyph_step stm r _ ham hcurm hgr (by rw [htm])
      obtain ⟨st2, e2, ha2, hc2, ht2, hv2⟩ :=
        ih st1 tail hc1 (by rw [ha1]; exact hchain') hall' (by rw [ht1, ha1])
      refine ⟨st2, (em.trans e1).trans e2, ?_, hc2, ht2, ?_⟩
      · rw [ha2, ha1]
        rfl
      · rw [hv2, hv1, hrm, List.append_assoc, visPairs_cons r rs]

/-- C1 counterexample: for input `"\r"` the original ParseResult is the single
trailing attribute-only record, but `normalize` serialises it to the empty
string, so re-parsing yields no records at all: the full (glyph, attributes)
pair sequences differ. -/
theorem claim_C1_counterexample :
    roundtripPairs ['\x0d'] = some ([(none, unset)], []) ∧
    ¬ ([((none : Option Char), unset)] = ([] : List (Option Char × Attrs))) := by
  constructor
  · decide
  · decide

/-- C1 amended: with no initial attributes, re-parsing `normalize()`'s string
reproduces the (glyph, attributes) pairs of exactly the records carrying a
visible glyph, provided no attribute component of the stored result (read in
result order, starting from the all-unset triple) ever changes back to unset
(and, for the style, changes only to a serialisable code) — the trailing
attribute-only marker may be present on one side only, and `"\x1b[38;5;Nonem"`
serialisations of reverted components are excluded by that proviso. -/
theorem claim_C1_amended (t : List Char) (out : AnsiOut)
    (h1 : ansiReset t none = some out) (hchain : chainB unset out.result = true) :
    ∃ out2, ansiReset (normalize out).1 none = some out2 ∧
      visPairs out2.result = visPairs out.result := by
  have hglyphs : out.result.all glyphOKb = true := ansiReset_glyphs h1
  obtain ⟨st2, e2, ha2, hc2, ht2, hv2⟩ := reparse_run out.result
    (initState (normalize out).1 none)
    (if 0 < out.cursor then '\x1b' :: '[' :: (intStr out.cursor ++ ['D']) else [])
    (by simp [initState])
    hchain hglyphs
    (by
      show (normalize out).1 = emitAll unset out.result ++ _
      rw [normalize_str])
  by_cases hcur : 0 < out.cursor
  · rw [if_pos hcur] at ht2
    obtain ⟨st3, e3, hr3, _⟩ := reparse_D_step st2 out.cursor hcur ht2
    have hfinal : runLoop (initState (normalize out).1 none) = some st3 := by
      rw [e2, e3]
    refine ⟨⟨(if st3.lastOffset ≠ st3.offset then
        st3.result ++ [⟨none, st3.attributes, st3.lastOffset⟩] else st3.result),
        (st3.result.length : Int) - st3.cursor⟩, ?_, ?_⟩
    · unfold ansiReset
      rw [hfinal]
    · dsimp only
      by_cases hio : st3.lastOffset ≠ st3.offset
      · rw [if_pos hio, visPairs_marker, hr3, hv2]
        simp [visPairs, initState]
      · rw [if_neg hio, hr3, hv2]
        simp [visPairs, initState]
  · rw [if_neg hcur] at ht2
    have hfinal : runLoop (initState (normalize out).1 none) = some st2 := by
      rw [e2]
      exact runLoop_eq_nil ht2
    refine ⟨⟨(if st2.lastOffset ≠ st2.offset then
        st2.result ++ [⟨none, st2.attributes, st2.lastOffset⟩] else st2.result),
        (st2.result.length : Int) - st2.cursor⟩, ?_, ?_⟩
    · unfold ansiReset
      rw [hfinal]
    · dsimp only
      by_cases hio : st2.lastOffset ≠ st2.offset
      · rw [if_pos hio, visPairs_marker, hv2]
        simp [visPairs, initState]
      · rw [if_neg hio, hv2]
        simp [visPairs, initState]

/-- C1 witness: the round trip on `"A"` with the chain condition holding. -/
theorem claim_C1_amended_witness :
    ansiReset ['A'] none = some ⟨[⟨some 'A', unset, 0⟩], 0⟩ ∧
    chainB unset [⟨some 'A', unset, 0⟩] = true ∧
    ∃ out2, ansiReset (normalize ⟨[⟨some 'A', unset, 0⟩], 0⟩).1 none = some out2 ∧
      visPairs out2.result = visPairs [⟨some 'A', unset, 0⟩] :=
  ⟨by decide, by decide,
    claim_C1_amended ['A'] ⟨[⟨some 'A', unset, 0⟩], 0⟩ (by decide) (by decide)⟩

end Asciimatics
